import Mathlib

/-!
Shallow embedding of the Dilithium-style signature implementation
(files dilithium/rings.py, dilithium/hash.py, dilithium/dilithium.py).

Machine integers are modelled as `Int` with explicit two's-complement
wrapping where the numpy `int32` dtype makes overflow observable.
The SHAKE128 extendable-output function is an external library
(pycryptodome); it is modelled as an abstract parameter
`Xof : Bytes → Nat → Nat` giving, for each seed, the byte stream that
`shake.read` produces (one byte per index).
-/

namespace Dilithium

/-- Polynomial degree bound, `Polynomial.N = 256`. -/
def Ndeg : Nat := 256

/-- Ring modulus `Polynomial.Q = 8380417` as an integer. -/
def Q : Int := 8380417

/-- Two's-complement wrap into the signed 32-bit range, the effect of the
numpy `int32` dtype on an out-of-range value. -/
def wrap32 (x : Int) : Int := (x + 2 ^ 31) % 2 ^ 32 - 2 ^ 31

/-- Coefficients are lists of integers. -/
abbrev Poly := List Int

/-- Byte strings are lists of naturals (each `< 256`). -/
abbrev Bytes := List Nat

/-- The reduction applied to each stored coefficient by `Polynomial.__init__`:
cast to `int32` (wrap), then `% Q` (numpy `%` takes the divisor's sign, which
is Lean's `Int.emod`). -/
def reduceCoeff (x : Int) : Int := wrap32 x % Q

/-- Source `Polynomial.__init__`: truncate the input to the first `N` entries,
cast to `int32` and reduce modulo `Q`, then zero-pad to length `N`. -/
def mkPoly (cs : List Int) : Poly :=
  let t := (cs.take Ndeg).map reduceCoeff
  t ++ List.replicate (Ndeg - t.length) 0

/-- Source `Polynomial()` with no argument: the all-zero coefficient array. -/
def zeroPoly : Poly := List.replicate Ndeg 0

/-- The representation invariant of `Polynomial`: exactly `N` stored
coefficients, each canonically in `[0, Q)`. -/
def canonicalPoly (p : Poly) : Prop :=
  p.length = Ndeg ∧ ∀ x ∈ p, 0 ≤ x ∧ x < Q

instance (p : Poly) : Decidable (canonicalPoly p) := by
  unfold canonicalPoly; infer_instance

/-- Source `Polynomial.__add__`: elementwise `int32` addition followed by `% Q`,
then the constructor's reduction. -/
def polyAdd (a b : Poly) : Poly :=
  mkPoly (List.zipWith (fun x y => wrap32 (x + y) % Q) a b)

/-- Source `Polynomial.__sub__`: elementwise `int32` subtraction followed by `% Q`,
then the constructor's reduction. -/
def polySub (a b : Poly) : Poly :=
  mkPoly (List.zipWith (fun x y => wrap32 (x - y) % Q) a b)

/-- Source `Polynomial.__mul__` scalar branch: elementwise `int32` product with the
scalar followed by `% Q`, then the constructor's reduction. -/
def polyScalarMul (a : Poly) (k : Int) : Poly :=
  mkPoly (a.map (fun x => wrap32 (x * k) % Q))

/-- One output coefficient of `Polynomial.__mul__`: the loop
`for i in range(N): result = (result + signs * np.roll(prods, -i)) % Q`
restricted to output position `j`.  `signs[j]` is `-1` iff `i + j >= N`;
`np.roll(prods, -i)[j]` is `prods[(j + i) % N]`, and `prods = a[i] * b`
is an `int32` product (wraps modulo `2^32`). -/
def mulCoeff (a b : Poly) (j : Nat) : Int :=
  (List.range Ndeg).foldl
    (fun acc i =>
      (acc + (if Ndeg ≤ i + j then (-1 : Int) else 1) *
        wrap32 (a.getD i 0 * b.getD ((i + j) % Ndeg) 0)) % Q)
    0

/-- Source `Polynomial.__mul__` (polynomial branch): all `N` output coefficients,
then the constructor `Polynomial(result)`. -/
def polyMul (a b : Poly) : Poly :=
  mkPoly ((List.range Ndeg).map (mulCoeff a b))

/-- Source `OptimizedDilithium._matrix_multiply`: for each row, fold
`sum_poly = sum_poly + (a * v)` starting from `Polynomial()`. -/
def matVecMul (m : List (List Poly)) (v : List Poly) : List Poly :=
  m.map (fun row =>
    (List.zip row v).foldl (fun acc av => polyAdd acc (polyMul av.1 av.2)) zeroPoly)

/-! ## Expansion engine (hash.py).  SHAKE128 itself is external library code
(pycryptodome); it is modelled as an abstract stream `Xof`. -/

/-- Abstract extendable-output function: a seed determines an infinite byte
stream (index ↦ byte). -/
abbrev Xof := Bytes → Nat → Nat

/-- Modelled `shake.read(len)` after `shake.update(seed)`: the first `len` bytes of
the stream.  The `% 256` records that SHAKE output consists of bytes. -/
def xofRead (xof : Xof) (seed : Bytes) (len : Nat) : Bytes :=
  (List.range len).map (fun i => xof seed i % 256)

/-- Domain separators from hash.py and dilithium.py. -/
def DOMAIN_MATRIX : Nat := 0x01
def DOMAIN_CHALLENGE : Nat := 0x02
def DOMAIN_SMALL_POLY : Nat := 0x03
def DOMAIN_MESSAGE : Nat := 0x04
def DOMAIN_Y_POLY : Nat := 0x05

/-- Constant `TAU = 60`, the challenge weight. -/
def TAU : Nat := 60

/-- Source `expand_seed(seed, domain, length)`: SHAKE over `seed + bytes([domain])`. -/
def expandSeed (xof : Xof) (seed : Bytes) (domain : Nat) (len : Nat) : Bytes :=
  xofRead xof (seed ++ [domain]) len

/-- The little-endian 4-byte combination
`b0 | b1 << 8 | b2 << 16 | b3 << 24` performed on `int32` values: for byte
inputs the three shifted lanes are disjoint, so the bitwise OR equals the
two's-complement wrap of the weighted sum (`b3 << 24` overflows `int32`
whenever `b3 ≥ 128`). -/
def leWord32 (b0 b1 b2 b3 : Nat) : Int :=
  wrap32 ((b0 : Int) + 2 ^ 8 * b1 + 2 ^ 16 * b2 + 2 ^ 24 * b3)

/-- Source `OptimizedHasher.generate_matrix`: expand the seed under the matrix
domain into `k*l*N*4` bytes, combine each 4-byte group into an `int32`
word, reduce `% Q`, reshape to `(k, l, N)` and build the `Polynomial`s. -/
def generateMatrix (xof : Xof) (seed : Bytes) (k l : Nat) : List (List Poly) :=
  let data := xofRead xof (seed ++ [DOMAIN_MATRIX]) (k * l * Ndeg * 4)
  let coeffs := (List.range (k * l * Ndeg)).map (fun idx =>
    leWord32 (data.getD (4 * idx) 0) (data.getD (4 * idx + 1) 0)
      (data.getD (4 * idx + 2) 0) (data.getD (4 * idx + 3) 0) % Q)
  (List.range k).map (fun i => (List.range l).map (fun j =>
    mkPoly ((List.range Ndeg).map (fun n => coeffs.getD ((i * l + j) * Ndeg + n) 0))))

/-- Source `hash_message`: SHAKE over `bytes([DOMAIN_MESSAGE]) + message`, 32 bytes. -/
def hashMessage (xof : Xof) (m : Bytes) : Bytes :=
  xofRead xof (DOMAIN_MESSAGE :: m) 32

/-- Serialization `np.array(coeffs, dtype=np.int32).tobytes()` for one coefficient:
the four little-endian bytes of its `int32` two's-complement pattern. -/
def encodeInt32LE (x : Int) : Bytes :=
  let u := (x % 2 ^ 32).toNat
  [u % 256, u / 2 ^ 8 % 256, u / 2 ^ 16 % 256, u / 2 ^ 24 % 256]

/-- The bytes fed to the challenge hash for the commitment vector `w1`:
each polynomial's coefficient array serialized in order. -/
def encodeW (w : List Poly) : Bytes :=
  (w.map (fun p => (p.map encodeInt32LE).flatten)).flatten

/-- The full SHAKE input used by `generate_challenge`:
`mu`, then `rho`, then the coefficient bytes of `w1`, then the challenge
domain separator. -/
def challengeSeed (xof : Xof) (m : Bytes) (pk : Bytes × List Poly) (w1 : List Poly) : Bytes :=
  hashMessage xof m ++ pk.1 ++ encodeW w1 ++ [DOMAIN_CHALLENGE]

/-- The candidate `(position, sign)` pairs: `challenge_bytes` holds
`TAU * 2` bytes; pair `idx` combines bytes `2*idx` and `2*idx+1`
little-endian as `uint16` and reduces `% N`; its sign is `+1` when the
high bit (`0x80`) of the pair's first byte is set, else `-1`. -/
def challengePairs (cb : Bytes) : List (Nat × Int) :=
  (List.range TAU).map (fun idx =>
    ((cb.getD (2 * idx) 0 + 2 ^ 8 * cb.getD (2 * idx + 1) 0) % Ndeg,
     if Nat.land (cb.getD (2 * idx) 0) 0x80 ≠ 0 then (1 : Int) else -1))

/-- The `while len(used_positions) < TAU and pos_idx < len(positions)` loop:
walk the pairs in order; if fewer than `TAU` distinct positions are used and
the position is new, write its sign into the coefficient array. -/
def fillChallenge : List (Nat × Int) → List Nat → List Int → List Int
  | [], _, coeffs => coeffs
  | (p, s) :: rest, used, coeffs =>
    if used.length < TAU then
      if p ∈ used then fillChallenge rest used coeffs
      else fillChallenge rest (p :: used) (coeffs.set p s)
    else coeffs

/-- Source `OptimizedHasher.generate_challenge`: read `TAU * 2` bytes of the
challenge stream, fill the sparse sign pattern, and build the polynomial. -/
def generateChallenge (xof : Xof) (m : Bytes) (pk : Bytes × List Poly)
    (w1 : List Poly) : Poly :=
  let cb := xofRead xof (challengeSeed xof m pk w1) (TAU * 2)
  mkPoly (fillChallenge (challengePairs cb) [] (List.replicate Ndeg 0))

/-! ## Signature orchestrator (dilithium.py). -/

/-- Bound constants of dilithium.py (deliberately relaxed). -/
def GAMMA1 : Int := Q
def GAMMA2 : Int := Q
def BETA : Int := 1

/-- Constant `GAMMA1` as a natural number, for the sampler's modulus `2*bound+1`. -/
def gamma1Nat : Nat := 8380417

/-- Error taxonomy: `ValueError` at construction, `ValueError` for a
missing key, `RuntimeError` when the attempt loop is exhausted. -/
inductive DErr where
  | configError
  | invalidState
  | signingFailure
deriving DecidableEq

/-- The mutable fields of an `OptimizedDilithium` instance.  `matrixCache`
models the `functools.lru_cache` attached to `get_matrix_A`: the cache key
is `self` alone, so at most one matrix is retained per instance. -/
structure DState where
  k : Nat
  l : Nat
  eta : Nat
  rho : Option Bytes
  t : Option (List Poly)
  s1 : Option (List Poly)
  s2 : Option (List Poly)
  matrixCache : Option (List (List Poly))
deriving DecidableEq

/-- Source `OptimizedDilithium.__init__`: the `(k, l, eta)` table for security
levels 2, 3, 5; any other level raises `ValueError`. -/
def dilithiumNew (level : Nat) : Except DErr DState :=
  if level = 2 then .ok ⟨4, 4, 2, none, none, none, none, none⟩
  else if level = 3 then .ok ⟨6, 5, 4, none, none, none, none, none⟩
  else if level = 5 then .ok ⟨8, 7, 2, none, none, none, none, none⟩
  else .error .configError

/-- Source `get_matrix_A`: the `lru_cache` hit is checked before the body runs;
on a miss the body raises if `rho` is unset, otherwise derives the matrix
from the current `rho` and caches it. -/
def getMatrixA (xof : Xof) (st : DState) : Except DErr (List (List Poly) × DState) :=
  match st.matrixCache with
  | some mA => .ok (mA, st)
  | none =>
    match st.rho with
    | none => .error .invalidState
    | some r =>
      let mA := generateMatrix xof r st.k st.l
      .ok (mA, { st with matrixCache := some mA })

/-- Source `OptimizedDilithium._generate_vector(size, bound, domain)` for a given
fresh 32-byte seed: expand `size*N*4` bytes, take each 4-byte group as a
little-endian `uint32` word, reduce `% (2*bound+1)`, recenter by `- bound`,
and build the `Polynomial`s row by row. -/
def generateBoundedVector (xof : Xof) (seed : Bytes) (size bound domain : Nat) :
    List Poly :=
  let data := xofRead xof (seed ++ [domain]) (size * Ndeg * 4)
  (List.range size).map (fun p =>
    mkPoly ((List.range Ndeg).map (fun n =>
      let idx := p * Ndeg + n
      (((data.getD (4 * idx) 0 + 2 ^ 8 * data.getD (4 * idx + 1) 0 +
          2 ^ 16 * data.getD (4 * idx + 2) 0 + 2 ^ 24 * data.getD (4 * idx + 3) 0) %
          (2 * bound + 1) : Nat) : Int) - (bound : Int))))

/-- Source `keygen`: store a fresh `rho`, fetch `A` through the cached accessor,
sample `s1`, `s2`, set `t = A·s1 + s2`, and return
`((rho, t), (s1, s2))` along with the mutated instance. -/
def keygen (xof : Xof) (st : DState) (rhoNew s1seed s2seed : Bytes) :
    Except DErr (DState × (Bytes × List Poly) × (List Poly × List Poly)) :=
  let st1 := { st with rho := some rhoNew }
  match getMatrixA xof st1 with
  | .error e => .error e
  | .ok (mA, st2) =>
    let s1 := generateBoundedVector xof s1seed st2.l st2.eta DOMAIN_SMALL_POLY
    let s2 := generateBoundedVector xof s2seed st2.k st2.eta DOMAIN_SMALL_POLY
    let t := List.zipWith polyAdd (matVecMul mA s1) s2
    .ok ({ st2 with t := some t, s1 := some s1, s2 := some s2 },
      (rhoNew, t), (s1, s2))

/-- The `sign` commitment check `np.any(np.abs(w_coeffs) > GAMMA2)`. -/
def wExceedsSign (w : List Poly) : Bool :=
  w.any (fun p => p.any (fun x => decide (GAMMA2 < |x|)))

/-- The response check `np.any(np.abs(z_coeffs) >= GAMMA1 - BETA)`, used
identically in `sign` and `verify`. -/
def zExceeds (z : List Poly) : Bool :=
  z.any (fun p => p.any (fun x => decide (GAMMA1 - BETA ≤ |x|)))

/-- The `verify` commitment check `np.any(np.abs(w_coeffs) >= GAMMA2)`. -/
def wExceedsVerify (w : List Poly) : Bool :=
  w.any (fun p => p.any (fun x => decide (GAMMA2 ≤ |x|)))

/-- One run of the `while attempts < max_attempts` body, with `ySeed`
giving the fresh 32-byte seed drawn at each attempt index: sample `y`,
form `w = A·y`, retry if `w` exceeds the bound, derive the challenge,
form `z = y + c·s1`, retry if `z` exceeds the bound, else succeed.
Runs out of fuel with the `RuntimeError` of the exhausted loop. -/
def signLoop (xof : Xof) (mA : List (List Poly)) (pk : Bytes × List Poly)
    (s1 : List Poly) (l : Nat) (m : Bytes) (ySeed : Nat → Bytes) :
    Nat → Nat → Except DErr (List Poly × Poly × List Poly)
  | _, 0 => .error .signingFailure
  | i, fuel + 1 =>
    let y := generateBoundedVector xof (ySeed i) l gamma1Nat DOMAIN_Y_POLY
    let w := matVecMul mA y
    if wExceedsSign w then signLoop xof mA pk s1 l m ySeed (i + 1) fuel
    else
      let c := generateChallenge xof m pk w
      let z := List.zipWith (fun yi si => polyAdd yi (polyMul c si)) y s1
      if zExceeds z then signLoop xof mA pk s1 l m ySeed (i + 1) fuel
      else .ok (z, c, w)

/-- Source `sign(message, max_attempts)`: `ValueError` unless
`all([rho, t, s1, s2])` is truthy (all set and none empty), then the
rejection-sampling loop with `public_key = (rho, t)`. -/
def sign (xof : Xof) (st : DState) (m : Bytes) (ySeed : Nat → Bytes)
    (maxAttempts : Nat) : Except DErr (List Poly × Poly × List Poly) :=
  match st.rho, st.t, st.s1, st.s2 with
  | some rho, some t, some s1, some s2 =>
    if rho = [] ∨ t = [] ∨ s1 = [] ∨ s2 = [] then .error .invalidState
    else
      match getMatrixA xof st with
      | .error e => .error e
      | .ok (mA, _) => signLoop xof mA (rho, t) s1 st.l m ySeed 0 maxAttempts
  | _, _, _, _ => .error .invalidState

/-- The `verify` step that rebuilds each commitment polynomial from
`np.abs(coefficients) % Q`. -/
def wProcess (w : List Poly) : List Poly :=
  w.map (fun p => mkPoly (p.map (fun x => |x| % Q)))

/-- Source `verify(message, signature, public_key)`: the three rejection checks
and the challenge recomputation; always returns a boolean. -/
def verify (xof : Xof) (m : Bytes) (sig : List Poly × Poly × List Poly)
    (pk : Bytes × List Poly) : Bool :=
  let z := sig.1
  let c := sig.2.1
  let wRaw := sig.2.2
  if zExceeds z then false
  else
    let wp := wProcess wRaw
    if wExceedsVerify wp then false
    else
      let cPrime := generateChallenge xof m pk wp
      decide (c = cPrime)

/-! ## Spec-side definitions, rendered from the specification's wording,
to be compared with the definitions taken from the source. -/

/-- Spec 4.2 (derive_challenge, step 4): walk the candidate pairs in order,
accept the first occurrence of each distinct position, skip repeats, stop
once `tau` distinct positions are accepted or the stream is exhausted.
Returns the accepted `(position, sign)` list in acceptance order. -/
def specAccept : List (Nat × Int) → List (Nat × Int) → List (Nat × Int)
  | [], acc => acc
  | (p, s) :: rest, acc =>
    if acc.length < TAU then
      if p ∈ acc.map Prod.fst then specAccept rest acc
      else specAccept rest (acc ++ [(p, s)])
    else acc

/-- Spec 4.2 (derive_challenge, steps 4–6): the challenge polynomial has
the accepted signs at the accepted positions and 0 everywhere else. -/
def specChallengePoly (cb : Bytes) : Poly :=
  mkPoly ((specAccept (challengePairs cb) []).foldl
    (fun co ps => co.set ps.1 ps.2) (List.replicate Ndeg 0))

/-- Spec 4.2 (derive_matrix) as literally worded by the claim: every 4
consecutive bytes form a little-endian UNSIGNED 32-bit word, reduced
modulo Q; fill in row-major (k, then l, then N) order. -/
def specGenerateMatrixUnsigned (xof : Xof) (seed : Bytes) (k l : Nat) :
    List (List Poly) :=
  let data := xofRead xof (seed ++ [DOMAIN_MATRIX]) (k * l * Ndeg * 4)
  let words := (List.range (k * l * Ndeg)).map (fun idx =>
    ((data.getD (4 * idx) 0 + 2 ^ 8 * data.getD (4 * idx + 1) 0 +
      2 ^ 16 * data.getD (4 * idx + 2) 0 + 2 ^ 24 * data.getD (4 * idx + 3) 0 :
      Nat) : Int) % Q)
  (List.range k).map (fun i => (List.range l).map (fun j =>
    mkPoly ((List.range Ndeg).map (fun n => words.getD ((i * l + j) * Ndeg + n) 0))))

/-- The amended reading of derive_matrix: the little-endian word is taken
as a SIGNED (two's-complement) 32-bit value before reduction modulo Q. -/
def specGenerateMatrixSigned (xof : Xof) (seed : Bytes) (k l : Nat) :
    List (List Poly) :=
  let data := xofRead xof (seed ++ [DOMAIN_MATRIX]) (k * l * Ndeg * 4)
  let words := (List.range (k * l * Ndeg)).map (fun idx =>
    let u : Nat := data.getD (4 * idx) 0 + 2 ^ 8 * data.getD (4 * idx + 1) 0 +
      2 ^ 16 * data.getD (4 * idx + 2) 0 + 2 ^ 24 * data.getD (4 * idx + 3) 0
    (if u < 2 ^ 31 then (u : Int) else (u : Int) - 2 ^ 32) % Q)
  (List.range k).map (fun i => (List.range l).map (fun j =>
    mkPoly ((List.range Ndeg).map (fun n => words.getD ((i * l + j) * Ndeg + n) 0))))

/-- Spec 4.1 (mul), one coefficient of the quotient-ring convolution:
each exact integer product `a_i * b_j` contributes to output position
`(i + j) % N`, with sign `-1` exactly when `i + j ≥ N`. -/
def specMulCoeff (a b : Poly) (mIdx : Nat) : Int :=
  ((List.range Ndeg).map (fun i =>
    ((List.range Ndeg).map (fun j =>
      if (i + j) % Ndeg = mIdx then
        (if Ndeg ≤ i + j then (-1 : Int) else 1) * (a.getD i 0 * b.getD j 0)
      else 0)).sum)).sum

/-- Spec 4.1 (mul): the full quotient-ring product, reduced modulo Q. -/
def specRingMul (a b : Poly) : Poly :=
  (List.range Ndeg).map (fun mIdx => specMulCoeff a b mIdx % Q)

/-- The constant polynomial `1`. -/
def onePoly : Poly := 1 :: List.replicate 255 0

/-- The monomial `X`. -/
def xPoly : Poly := 0 :: 1 :: List.replicate 254 0

/-- The byte stream used to exhibit the signed/unsigned discrepancy: every
4-byte group is `(0, 0, 0, 128)`, whose little-endian word is `2^31`. -/
def highByteXof : Xof := fun _ i => if i % 4 = 3 then 128 else 0

/-- The byte streams of the stale-matrix-cache scenario: the matrix stream
for the second seed `rho = [2]` is the constant byte 7, every other stream
is constant 0. -/
def c2Xof : Xof := fun s _ => if s = [2, 1] then 7 else 0

/-- The secret polynomial sampled under the all-zero stream with
`eta = 2`: every coefficient is `0 % 5 - 2 = -2`, stored as `Q - 2`. -/
def c2SmallPoly : Poly := List.replicate Ndeg 8380415

/-- The secret vectors (and, with the zero matrix, also `t`) of the
scenario. -/
def c2Svec : List Poly := List.replicate 4 c2SmallPoly

/-- Matrix `A(rho = [1])` under `c2Xof`: the matrix stream is all zeros, so every
entry is the zero polynomial. -/
def c2ZeroMatrix : List (List Poly) := List.replicate 4 (List.replicate 4 zeroPoly)

/-- A fresh security-level-2 instance. -/
def c2St0 : DState := ⟨4, 4, 2, none, none, none, none, none⟩

/-- The instance after the first `keygen` (`rho = [1]`). -/
def c2St1 : DState :=
  ⟨4, 4, 2, some [1], some c2Svec, some c2Svec, some c2Svec, some c2ZeroMatrix⟩

/-- The instance after the second `keygen` (`rho = [2]`): the matrix cache
still holds the matrix derived from the first `rho`. -/
def c2St2 : DState :=
  ⟨4, 4, 2, some [2], some c2Svec, some c2Svec, some c2Svec, some c2ZeroMatrix⟩

/-! ## Basic facts about the embedding. -/

theorem wrap32_eq_self {x : Int} (h1 : -2 ^ 31 ≤ x) (h2 : x < 2 ^ 31) :
    wrap32 x = x := by
  unfold wrap32
  rw [Int.emod_eq_of_lt (by linarith) (by linarith)]
  ring

theorem wrap32_zero : wrap32 0 = 0 := by decide

theorem reduceCoeff_nonneg (x : Int) : 0 ≤ reduceCoeff x :=
  Int.emod_nonneg _ (by decide)

theorem reduceCoeff_lt (x : Int) : reduceCoeff x < Q :=
  Int.emod_lt_of_pos _ (by decide)

theorem reduceCoeff_eq_self {x : Int} (h1 : 0 ≤ x) (h2 : x < Q) :
    reduceCoeff x = x := by
  unfold reduceCoeff
  rw [wrap32_eq_self (le_trans (by decide) h1) (h2.trans (by decide)),
    Int.emod_eq_of_lt h1 h2]

theorem canonical_mkPoly (cs : List Int) : canonicalPoly (mkPoly cs) := by
  unfold mkPoly canonicalPoly
  constructor
  · simp only [List.length_append, List.length_replicate, List.length_map,
      List.length_take]
    omega
  · intro x hx
    rcases List.mem_append.mp hx with h | h
    · rcases List.mem_map.mp h with ⟨y, _, rfl⟩
      exact ⟨reduceCoeff_nonneg y, reduceCoeff_lt y⟩
    · rw [List.eq_of_mem_replicate h]
      exact ⟨le_refl 0, by decide⟩

theorem mkPoly_of_length {cs : List Int} (h : cs.length = Ndeg) :
    mkPoly cs = cs.map reduceCoeff := by
  show ((cs.take Ndeg).map reduceCoeff) ++
      List.replicate (Ndeg - ((cs.take Ndeg).map reduceCoeff).length) 0 =
      cs.map reduceCoeff
  rw [List.take_of_length_le (le_of_eq h), List.length_map, h, Nat.sub_self,
    List.replicate_zero, List.append_nil]

theorem mkPoly_canonical_id {p : Poly} (h : canonicalPoly p) : mkPoly p = p := by
  rw [mkPoly_of_length h.1]
  have : p.map reduceCoeff = p.map id :=
    List.map_congr_left (fun x hx => reduceCoeff_eq_self (h.2 x hx).1 (h.2 x hx).2)
  rw [this, List.map_id]

theorem zeroPoly_canonical : canonicalPoly zeroPoly := by
  constructor
  · exact List.length_replicate _ _
  · intro x hx
    rw [List.eq_of_mem_replicate hx]
    exact ⟨le_refl 0, by decide⟩

theorem canonical_polyAdd (a b : Poly) : canonicalPoly (polyAdd a b) :=
  canonical_mkPoly _

theorem canonical_polySub (a b : Poly) : canonicalPoly (polySub a b) :=
  canonical_mkPoly _

theorem canonical_polyScalarMul (a : Poly) (k : Int) :
    canonicalPoly (polyScalarMul a k) :=
  canonical_mkPoly _

theorem canonical_polyMul (a b : Poly) : canonicalPoly (polyMul a b) :=
  canonical_mkPoly _

theorem canonical_generateChallenge (xof : Xof) (m : Bytes)
    (pk : Bytes × List Poly) (w1 : List Poly) :
    canonicalPoly (generateChallenge xof m pk w1) :=
  canonical_mkPoly _

theorem canonical_foldl_polyAdd (l : List (Poly × Poly)) (acc : Poly)
    (h : canonicalPoly acc) :
    canonicalPoly (l.foldl (fun acc av => polyAdd acc (polyMul av.1 av.2)) acc) := by
  induction l generalizing acc with
  | nil => exact h
  | cons x xs ih => exact ih _ (canonical_polyAdd _ _)

theorem canonical_matVecMul (mA : List (List Poly)) (v : List Poly) :
    ∀ p ∈ matVecMul mA v, canonicalPoly p := by
  intro p hp
  rcases List.mem_map.mp hp with ⟨row, _, rfl⟩
  exact canonical_foldl_polyAdd _ _ zeroPoly_canonical

/-- Lemma: `getD` through a map over `List.range`. -/
theorem getD_map_range {α : Type} (f : Nat → α) {i n : Nat} (h : i < n) (d : α) :
    (((List.range n).map f).getD i d) = f i := by
  rw [List.getD_eq_getElem?_getD, List.getElem?_map, List.getElem?_range h]
  rfl

theorem getD_xofRead {xof : Xof} {s : Bytes} {i len : Nat} (h : i < len) :
    (xofRead xof s len).getD i 0 = xof s i % 256 :=
  getD_map_range _ h 0

theorem getD_replicate {α : Type} (a d : α) (n i : Nat) :
    (List.replicate n a).getD i d = if i < n then a else d := by
  rw [List.getD_eq_getElem?_getD, List.getElem?_replicate]
  split <;> rfl

theorem getD_zeroPoly (i : Nat) : zeroPoly.getD i 0 = 0 := by
  unfold zeroPoly
  rw [getD_replicate]
  split <;> rfl

theorem mkPoly_map_range_getD (f : Nat → Int) {j : Nat} (h : j < Ndeg) :
    (mkPoly ((List.range Ndeg).map f)).getD j 0 = reduceCoeff (f j) := by
  rw [mkPoly_of_length (by simp), List.map_map]
  exact getD_map_range _ h 0

theorem mkPoly_replicate (v : Int) :
    mkPoly (List.replicate Ndeg v) = List.replicate Ndeg (reduceCoeff v) := by
  rw [mkPoly_of_length (List.length_replicate _ _), List.map_replicate]

/-- The multiplication fold collapses when every wrapped product vanishes. -/
theorem mulCoeff_eq_zero_of {a b : Poly} {j : Nat}
    (h : ∀ i, wrap32 (a.getD i 0 * b.getD ((i + j) % Ndeg) 0) = 0) :
    mulCoeff a b j = 0 := by
  unfold mulCoeff
  have step : ∀ (L : List Nat),
      L.foldl (fun acc i =>
        (acc + (if Ndeg ≤ i + j then (-1 : Int) else 1) *
          wrap32 (a.getD i 0 * b.getD ((i + j) % Ndeg) 0)) % Q) 0 = 0 := by
    intro L
    induction L with
    | nil => rfl
    | cons x xs ih =>
      rw [List.foldl_cons, h x, mul_zero, add_zero, Int.zero_emod]
      exact ih
  exact step _

theorem mulCoeff_right_zero (a : Poly) (j : Nat) : mulCoeff a zeroPoly j = 0 :=
  mulCoeff_eq_zero_of (fun i => by rw [getD_zeroPoly, mul_zero, wrap32_zero])

theorem mulCoeff_left_zero (b : Poly) (j : Nat) : mulCoeff zeroPoly b j = 0 :=
  mulCoeff_eq_zero_of (fun i => by rw [getD_zeroPoly, zero_mul, wrap32_zero])

theorem polyMul_right_zero (a : Poly) : polyMul a zeroPoly = zeroPoly := by
  unfold polyMul
  rw [List.map_congr_left (fun i _ => mulCoeff_right_zero a i), List.map_const',
    List.length_range]
  rw [mkPoly_replicate]
  rfl

theorem polyMul_left_zero (b : Poly) : polyMul zeroPoly b = zeroPoly := by
  unfold polyMul
  rw [List.map_congr_left (fun i _ => mulCoeff_left_zero b i), List.map_const',
    List.length_range]
  rw [mkPoly_replicate]
  rfl

theorem zipWith_replicate_left {α : Type} (g : Int → α → α) (n : Nat) (l : List α) :
    List.zipWith g (List.replicate n 0) l = (l.take n).map (g 0) := by
  induction l generalizing n with
  | nil => simp
  | cons x xs ih =>
    cases n with
    | zero => simp
    | succ n => simp [List.replicate_succ, ih]

theorem polyAdd_zero_left {p : Poly} (h : canonicalPoly p) :
    polyAdd zeroPoly p = p := by
  unfold polyAdd zeroPoly
  rw [zipWith_replicate_left, ← h.1, List.take_length]
  have h2 : p.map (fun y => wrap32 (0 + y) % Q) = p.map id :=
    List.map_congr_left (fun x hx => by
      have hc := h.2 x hx
      rw [zero_add, wrap32_eq_self (le_trans (by decide) hc.1) (hc.2.trans (by decide)),
        Int.emod_eq_of_lt hc.1 hc.2, id])
  rw [h2, List.map_id, mkPoly_canonical_id h]

theorem wProcess_canonical_id {w : List Poly} (h : ∀ p ∈ w, canonicalPoly p) :
    wProcess w = w := by
  unfold wProcess
  have h2 : w.map (fun p => mkPoly (p.map (fun x => |x| % Q))) = w.map id :=
    List.map_congr_left (fun p hp => by
      have hc := h p hp
      have h3 : p.map (fun x => |x| % Q) = p.map id :=
        List.map_congr_left (fun x hx => by
          rw [abs_of_nonneg (hc.2 x hx).1, Int.emod_eq_of_lt (hc.2 x hx).1 (hc.2 x hx).2,
            id])
      rw [h3, List.map_id, mkPoly_canonical_id hc, id])
  rw [h2, List.map_id]

theorem wExceedsVerify_false {w : List Poly} (h : ∀ p ∈ w, canonicalPoly p) :
    wExceedsVerify w = false := by
  unfold wExceedsVerify
  rw [List.any_eq_false]
  intro p hp
  rw [Bool.not_eq_true, List.any_eq_false]
  intro x hx
  have hc := (h p hp).2 x hx
  simp only [decide_eq_true_eq, Bool.not_eq_true]
  rw [abs_of_nonneg hc.1]
  exact not_le.mpr hc.2

theorem wExceedsSign_false {w : List Poly} (h : ∀ p ∈ w, canonicalPoly p) :
    wExceedsSign w = false := by
  unfold wExceedsSign
  rw [List.any_eq_false]
  intro p hp
  rw [Bool.not_eq_true, List.any_eq_false]
  intro x hx
  have hc := (h p hp).2 x hx
  simp only [decide_eq_true_eq, Bool.not_eq_true]
  rw [abs_of_nonneg hc.1]
  exact not_lt.mpr (le_of_lt hc.2)

/-- If the supplied `z` passes the bound check, the commitment entries are
canonical, and the challenge matches the one recomputed from `w`, then
`verify` accepts. -/
theorem verify_accepts {xof : Xof} {m : Bytes} {z : List Poly} {c : Poly}
    {w : List Poly} {rho : Bytes} {t : List Poly}
    (hz : zExceeds z = false)
    (hw : ∀ p ∈ w, canonicalPoly p)
    (hc : c = generateChallenge xof m (rho, t) w) :
    verify xof m (z, c, w) (rho, t) = true := by
  unfold verify
  dsimp only
  rw [hz]
  simp only [Bool.false_eq_true, if_false]
  rw [wProcess_canonical_id hw, wExceedsVerify_false hw, hc]
  simp

/-- Any signature that `signLoop` returns verifies against the public key
it was produced for. -/
theorem signLoop_ok_verify (xof : Xof) (mA : List (List Poly)) (rho : Bytes)
    (t : List Poly) (s1 : List Poly) (l : Nat) (m : Bytes) (ySeed : Nat → Bytes)
    (i n : Nat) (z : List Poly) (c : Poly) (w : List Poly)
    (h : signLoop xof mA (rho, t) s1 l m ySeed i n = .ok (z, c, w)) :
    verify xof m (z, c, w) (rho, t) = true := by
  induction n generalizing i with
  | zero => exact absurd h (by simp [signLoop])
  | succ n ih =>
    rw [signLoop] at h
    by_cases hw : wExceedsSign (matVecMul mA
        (generateBoundedVector xof (ySeed i) l gamma1Nat DOMAIN_Y_POLY)) = true
    · rw [if_pos hw] at h
      exact ih _ h
    · rw [if_neg hw] at h
      by_cases hz : zExceeds (List.zipWith
          (fun yi si => polyAdd yi (polyMul (generateChallenge xof m (rho, t)
            (matVecMul mA (generateBoundedVector xof (ySeed i) l gamma1Nat
              DOMAIN_Y_POLY))) si))
          (generateBoundedVector xof (ySeed i) l gamma1Nat DOMAIN_Y_POLY) s1) = true
      · rw [if_pos hz] at h
        exact ih _ h
      · rw [if_neg hz] at h
        have hinj := Except.ok.inj h
        rw [← hinj]
        refine verify_accepts ?_ (canonical_matVecMul _ _) rfl
        simpa using hz

/-- Any signature `sign` returns verifies against `(rho, t)` as stored in
the instance at signing time. -/
theorem sign_ok_verify (xof : Xof) (st : DState) (m : Bytes) (ySeed : Nat → Bytes)
    (nAtt : Nat) (z : List Poly) (c : Poly) (w : List Poly) (rho : Bytes)
    (t : List Poly) (hrho : st.rho = some rho) (ht : st.t = some t)
    (h : sign xof st m ySeed nAtt = .ok (z, c, w)) :
    verify xof m (z, c, w) (rho, t) = true := by
  unfold sign at h
  rw [hrho, ht] at h
  cases hs1 : st.s1 with
  | none => rw [hs1] at h; exact absurd h (by simp)
  | some s1 =>
    cases hs2 : st.s2 with
    | none => rw [hs1, hs2] at h; exact absurd h (by simp)
    | some s2 =>
      rw [hs1, hs2] at h
      dsimp only at h
      by_cases hemp : rho = [] ∨ t = [] ∨ s1 = [] ∨ s2 = []
      · rw [if_pos hemp] at h; exact absurd h (by simp)
      · rw [if_neg hemp] at h
        cases hA : getMatrixA xof st with
        | error e => rw [hA] at h; exact absurd h (by simp)
        | ok As =>
          rw [hA] at h
          exact signLoop_ok_verify xof As.1 rho t s1 st.l m ySeed 0 nAtt z c w h

/-- A successful `getMatrixA` only ever touches the `matrixCache` field. -/
theorem getMatrixA_ok_fields {xof : Xof} {st st' : DState}
    {mA : List (List Poly)} (h : getMatrixA xof st = .ok (mA, st')) :
    st'.rho = st.rho ∧ st'.t = st.t ∧ st'.s1 = st.s1 ∧ st'.s2 = st.s2 ∧
      st'.k = st.k ∧ st'.l = st.l ∧ st'.eta = st.eta := by
  unfold getMatrixA at h
  cases hc : st.matrixCache with
  | some mA0 =>
    rw [hc] at h
    have hinj := Except.ok.inj h
    simp only [Prod.mk.injEq] at hinj
    rw [← hinj.2]
    exact ⟨rfl, rfl, rfl, rfl, rfl, rfl, rfl⟩
  | none =>
    cases hr : st.rho with
    | none => rw [hc, hr] at h; exact absurd h (by simp)
    | some r =>
      rw [hc, hr] at h
      dsimp only at h
      have hinj := Except.ok.inj h
      simp only [Prod.mk.injEq] at hinj
      rw [← hinj.2]
      exact ⟨rfl, rfl, rfl, rfl, rfl, rfl, rfl⟩

/-- C1: for every key pair produced by `keygen` and every message, if `sign`
succeeds and returns a signature `(z, c, w)`, then `verify` of that
signature and message against the returned public key yields `true`. -/
theorem C1_keygen_sign_verify_roundtrip (xof : Xof) (st0 st1 : DState)
    (rhoNew s1seed s2seed : Bytes) (pk : Bytes × List Poly)
    (sk : List Poly × List Poly) (m : Bytes) (ySeed : Nat → Bytes) (nAtt : Nat)
    (sig : List Poly × Poly × List Poly)
    (hkg : keygen xof st0 rhoNew s1seed s2seed = .ok (st1, pk, sk))
    (hsig : sign xof st1 m ySeed nAtt = .ok sig) :
    verify xof m sig pk = true := by
  obtain ⟨z, c, w⟩ := sig
  unfold keygen at hkg
  dsimp only at hkg
  cases hA : getMatrixA xof { st0 with rho := some rhoNew } with
  | error e => rw [hA] at hkg; exact absurd hkg (by simp)
  | ok As =>
    rw [hA] at hkg
    dsimp only at hkg
    have hinj := Except.ok.inj hkg
    simp only [Prod.mk.injEq] at hinj
    obtain ⟨hst, hpk, hsk⟩ := hinj
    rw [← hpk]
    refine sign_ok_verify xof st1 m ySeed nAtt z c w rhoNew _ ?_ ?_ hsig
    · rw [← hst]
      exact (getMatrixA_ok_fields hA).1
    · rw [← hst]

/-- C6: `verify` returns `false` (rather than raising) whenever some
coefficient of `z`, taken as a signed value, has absolute value at least
`GAMMA1 - BETA`. -/
theorem C6_verify_rejects_oversized_z (xof : Xof) (m : Bytes) (z : List Poly)
    (c : Poly) (w : List Poly) (pk : Bytes × List Poly)
    (h : ∃ p ∈ z, ∃ x ∈ p, GAMMA1 - BETA ≤ |x|) :
    verify xof m (z, c, w) pk = false := by
  have hz : zExceeds z = true := by
    rw [zExceeds, List.any_eq_true]
    obtain ⟨p, hp, x, hx, hb⟩ := h
    exact ⟨p, hp, List.any_eq_true.mpr ⟨x, hx, decide_eq_true hb⟩⟩
  unfold verify
  dsimp only
  rw [hz]
  simp

/-- Witness for C6 at a concrete oversized `z`. -/
theorem C6_witness :
    (∃ p ∈ [[(Q - 1 : Int)]], ∃ x ∈ p, GAMMA1 - BETA ≤ |x|) ∧
      verify (fun _ _ => 0) [] ([[(Q - 1 : Int)]], [], []) ([], []) = false :=
  ⟨by decide, C6_verify_rejects_oversized_z _ _ _ _ _ _ (by decide)⟩

/-- C7: the result of `verify` does not depend on the `t` component of the
supplied public key; only `rho` enters the recomputed challenge. -/
theorem C7_verify_ignores_t (xof : Xof) (m : Bytes)
    (sig : List Poly × Poly × List Poly) (rho : Bytes) (t1 t2 : List Poly) :
    verify xof m sig (rho, t1) = verify xof m sig (rho, t2) := rfl

/-- C10: the commitment-bound rejection in `sign` is unreachable — the
coefficients of `w = A·y` are stored canonically in `[0, Q)`, so the check
`|coefficient| > GAMMA2` (with `GAMMA2 = Q`) never fires. -/
theorem C10_w_bound_check_unreachable (mA : List (List Poly)) (y : List Poly) :
    wExceedsSign (matVecMul mA y) = false :=
  wExceedsSign_false (canonical_matVecMul mA y)

/-- The rejection loop's only failure mode is the exhaustion error. -/
theorem signLoop_error_is_signingFailure (xof : Xof) (mA : List (List Poly))
    (pk : Bytes × List Poly) (s1 : List Poly) (l : Nat) (m : Bytes)
    (ySeed : Nat → Bytes) :
    ∀ n i r, signLoop xof mA pk s1 l m ySeed i n = .error r →
      r = .signingFailure := by
  intro n
  induction n with
  | zero =>
    intro i r h
    rw [signLoop] at h
    exact (Except.error.inj h).symm
  | succ n ih =>
    intro i r h
    rw [signLoop] at h
    by_cases hw : wExceedsSign (matVecMul mA
        (generateBoundedVector xof (ySeed i) l gamma1Nat DOMAIN_Y_POLY)) = true
    · rw [if_pos hw] at h
      exact ih _ _ h
    · rw [if_neg hw] at h
      by_cases hz : zExceeds (List.zipWith
          (fun yi si => polyAdd yi (polyMul (generateChallenge xof m pk
            (matVecMul mA (generateBoundedVector xof (ySeed i) l gamma1Nat
              DOMAIN_Y_POLY))) si))
          (generateBoundedVector xof (ySeed i) l gamma1Nat DOMAIN_Y_POLY) s1) = true
      · rw [if_pos hz] at h
        exact ih _ _ h
      · rw [if_neg hz] at h
        exact absurd h (by simp)

/-- C8: on a keyed instance, `sign` with `max_attempts = 0` fails with the
retryable signing failure, and more generally exhaustion of the attempt
loop is the only error `sign` can raise on a keyed instance. -/
theorem C8_sign_exhaustion_fails (xof : Xof) (st : DState) (m : Bytes)
    (ySeed : Nat → Bytes) (rho : Bytes) (t s1 s2 : List Poly)
    (hrho : st.rho = some rho) (ht : st.t = some t) (hs1 : st.s1 = some s1)
    (hs2 : st.s2 = some s2) (hne : ¬(rho = [] ∨ t = [] ∨ s1 = [] ∨ s2 = [])) :
    sign xof st m ySeed 0 = .error .signingFailure ∧
      ∀ n r, sign xof st m ySeed n = .error r → r = .signingFailure := by
  have hA : ∃ As, getMatrixA xof st = .ok As := by
    unfold getMatrixA
    cases hc : st.matrixCache with
    | some mA0 => exact ⟨_, rfl⟩
    | none => rw [hrho]; exact ⟨_, rfl⟩
  obtain ⟨As, hA⟩ := hA
  constructor
  · unfold sign
    rw [hrho, ht, hs1, hs2]
    dsimp only
    rw [if_neg hne, hA]
    rfl
  · intro n r h
    unfold sign at h
    rw [hrho, ht, hs1, hs2] at h
    dsimp only at h
    rw [if_neg hne, hA] at h
    exact signLoop_error_is_signingFailure _ _ _ _ _ _ _ _ _ _ h

/-! ### Concrete evaluation of the all-zero-stream scenario, used to
exhibit a successful signing run. -/

theorem getD_xofRead_zero (s : Bytes) (len m : Nat) :
    (xofRead (fun _ _ => 0) s len).getD m 0 = 0 := by
  by_cases h : m < len
  · rw [getD_xofRead h]
  · rw [List.getD_eq_getElem?_getD, List.getElem?_eq_none (by simp [xofRead]; omega)]
    rfl

theorem generateMatrix_zero (r : Bytes) :
    generateMatrix (fun _ _ => 0) r 1 1 = [[zeroPoly]] := by
  unfold generateMatrix
  dsimp only
  rw [show (List.range 1) = [0] from rfl]
  simp only [List.map_cons, List.map_nil]
  have he : ∀ idx ∈ List.range (1 * 1 * Ndeg),
      leWord32 ((xofRead (fun _ _ => 0) (r ++ [DOMAIN_MATRIX]) (1 * 1 * Ndeg * 4)).getD (4 * idx) 0)
        ((xofRead (fun _ _ => 0) (r ++ [DOMAIN_MATRIX]) (1 * 1 * Ndeg * 4)).getD (4 * idx + 1) 0)
        ((xofRead (fun _ _ => 0) (r ++ [DOMAIN_MATRIX]) (1 * 1 * Ndeg * 4)).getD (4 * idx + 2) 0)
        ((xofRead (fun _ _ => 0) (r ++ [DOMAIN_MATRIX]) (1 * 1 * Ndeg * 4)).getD (4 * idx + 3) 0) % Q =
        (0 : Int) := fun idx _ => by
    rw [getD_xofRead_zero, getD_xofRead_zero, getD_xofRead_zero, getD_xofRead_zero]
    decide
  rw [List.map_congr_left he, List.map_const', List.length_range]
  have hinner : ∀ n ∈ List.range Ndeg,
      (List.replicate (1 * 1 * Ndeg) (0 : Int)).getD ((0 * 1 + 0) * Ndeg + n) 0 =
        (0 : Int) := fun n _ => by
    rw [getD_replicate]
    split <;> rfl
  rw [List.map_congr_left hinner, List.map_const', List.length_range, mkPoly_replicate]
  rfl

theorem generateBoundedVector_zero (s : Bytes) (b d : Nat) :
    generateBoundedVector (fun _ _ => 0) s 1 b d =
      [List.replicate Ndeg (reduceCoeff (-(b : Int)))] := by
  unfold generateBoundedVector
  dsimp only
  rw [show (List.range 1) = [0] from rfl]
  simp only [List.map_cons, List.map_nil]
  have hinner : ∀ n ∈ List.range Ndeg,
      ((((xofRead (fun _ _ => 0) (s ++ [d]) (1 * Ndeg * 4)).getD (4 * (0 * Ndeg + n)) 0 +
          2 ^ 8 * (xofRead (fun _ _ => 0) (s ++ [d]) (1 * Ndeg * 4)).getD (4 * (0 * Ndeg + n) + 1) 0 +
          2 ^ 16 * (xofRead (fun _ _ => 0) (s ++ [d]) (1 * Ndeg * 4)).getD (4 * (0 * Ndeg + n) + 2) 0 +
          2 ^ 24 * (xofRead (fun _ _ => 0) (s ++ [d]) (1 * Ndeg * 4)).getD (4 * (0 * Ndeg + n) + 3) 0) %
          (2 * b + 1) : Nat) : Int) - (b : Int) = -(b : Int) := fun n _ => by
    rw [getD_xofRead_zero, getD_xofRead_zero, getD_xofRead_zero, getD_xofRead_zero]
    simp
  rw [List.map_congr_left hinner, List.map_const', List.length_range, mkPoly_replicate]

theorem polyAdd_zeroPoly_zeroPoly : polyAdd zeroPoly zeroPoly = zeroPoly :=
  polyAdd_zero_left zeroPoly_canonical

theorem zExceeds_zeroPoly : zExceeds [zeroPoly] = false := by
  rw [zExceeds, List.any_eq_false]
  intro p hp
  rw [List.mem_singleton.mp hp, Bool.not_eq_true, List.any_eq_false]
  intro x hx
  rw [List.eq_of_mem_replicate hx]
  decide

theorem matVecMul_zero_single (v0 : Poly) :
    matVecMul [[zeroPoly]] [v0] = [zeroPoly] := by
  unfold matVecMul
  simp only [List.map_cons, List.map_nil, List.zip_cons_cons, List.zip_nil_right,
    List.foldl_cons, List.foldl_nil]
  rw [polyMul_left_zero, polyAdd_zeroPoly_zeroPoly]

theorem keygen_zero_eval :
    keygen (fun _ _ => 0) ⟨1, 1, 0, none, none, none, none, none⟩ [0] [0] [0] =
      .ok (⟨1, 1, 0, some [0], some [zeroPoly], some [zeroPoly], some [zeroPoly],
        some [[zeroPoly]]⟩, ([0], [zeroPoly]), ([zeroPoly], [zeroPoly])) := by
  unfold keygen getMatrixA
  dsimp only
  rw [generateMatrix_zero, generateBoundedVector_zero]
  rw [show reduceCoeff (-((0 : Nat) : Int)) = 0 from by decide]
  rw [show List.replicate Ndeg (0 : Int) = zeroPoly from rfl]
  rw [matVecMul_zero_single]
  rw [show List.zipWith polyAdd [zeroPoly] [zeroPoly] = [polyAdd zeroPoly zeroPoly] from rfl,
    polyAdd_zeroPoly_zeroPoly]

theorem sign_zero_eval :
    sign (fun _ _ => 0) ⟨1, 1, 0, some [0], some [zeroPoly], some [zeroPoly],
        some [zeroPoly], some [[zeroPoly]]⟩ [] (fun _ => [0]) 1 =
      .ok ([zeroPoly],
        generateChallenge (fun _ _ => 0) [] ([0], [zeroPoly]) [zeroPoly],
        [zeroPoly]) := by
  unfold sign
  dsimp only
  rw [if_neg (by decide)]
  unfold getMatrixA
  dsimp only
  rw [show (1 : Nat) = 0 + 1 from rfl, signLoop]
  dsimp only
  rw [generateBoundedVector_zero]
  rw [show reduceCoeff (-((gamma1Nat : Nat) : Int)) = 0 from by decide]
  rw [show List.replicate Ndeg (0 : Int) = zeroPoly from rfl]
  rw [matVecMul_zero_single]
  rw [if_neg (by rw [wExceedsSign_false (by intro p hp; rw [List.mem_singleton.mp hp]; exact zeroPoly_canonical)]; simp)]
  rw [show ∀ c : Poly, List.zipWith (fun yi si => polyAdd yi (polyMul c si)) [zeroPoly] [zeroPoly] =
      [polyAdd zeroPoly (polyMul c zeroPoly)] from fun c => rfl]
  rw [polyMul_right_zero, polyAdd_zeroPoly_zeroPoly]
  rw [if_neg (by simp [zExceeds_zeroPoly])]

/-- Witness for C1: a complete keygen→sign→verify run under the all-zero
byte stream succeeds end to end. -/
theorem C1_witness :
    keygen (fun _ _ => 0) ⟨1, 1, 0, none, none, none, none, none⟩ [0] [0] [0] =
      .ok (⟨1, 1, 0, some [0], some [zeroPoly], some [zeroPoly], some [zeroPoly],
        some [[zeroPoly]]⟩, ([0], [zeroPoly]), ([zeroPoly], [zeroPoly])) ∧
    sign (fun _ _ => 0) ⟨1, 1, 0, some [0], some [zeroPoly], some [zeroPoly],
        some [zeroPoly], some [[zeroPoly]]⟩ [] (fun _ => [0]) 1 =
      .ok ([zeroPoly],
        generateChallenge (fun _ _ => 0) [] ([0], [zeroPoly]) [zeroPoly],
        [zeroPoly]) ∧
    verify (fun _ _ => 0) []
      ([zeroPoly], generateChallenge (fun _ _ => 0) [] ([0], [zeroPoly]) [zeroPoly],
        [zeroPoly]) ([0], [zeroPoly]) = true :=
  ⟨keygen_zero_eval, sign_zero_eval,
    C1_keygen_sign_verify_roundtrip _ _ _ _ _ _ _ _ _ _ _ _
      keygen_zero_eval sign_zero_eval⟩

/-! ### The challenge loop (C5). -/

theorem countP_set_le (p : Int → Bool) (l : List Int) (i : Nat) (a : Int) :
    (l.set i a).countP p ≤ l.countP p + 1 := by
  by_cases h : i < l.length
  · rw [List.countP_set p l i a h]
    split <;> split <;> omega
  · rw [List.set_eq_of_length_le (le_of_not_lt h)]
    omega

theorem specAccept_prefix (pairs : List (Nat × Int)) (acc : List (Nat × Int)) :
    ∃ suf, specAccept pairs acc = acc ++ suf := by
  induction pairs generalizing acc with
  | nil => exact ⟨[], by simp [specAccept]⟩
  | cons pr rest ih =>
    obtain ⟨p, s⟩ := pr
    by_cases h1 : acc.length < TAU
    · by_cases h2 : p ∈ acc.map Prod.fst
      · rw [specAccept, if_pos h1, if_pos h2]
        exact ih acc
      · rw [specAccept, if_pos h1, if_neg h2]
        obtain ⟨suf, hsuf⟩ := ih (acc ++ [(p, s)])
        exact ⟨(p, s) :: suf, by rw [hsuf, List.append_assoc]; rfl⟩
    · rw [specAccept, if_neg h1]
      exact ⟨[], by simp⟩

/-- The source loop over `used_positions` computes exactly the spec's
accepted-pair fold, for any matching accumulator pair. -/
theorem fillChallenge_spec (pairs : List (Nat × Int)) (used : List Nat)
    (acc : List (Nat × Int)) (coeffs : List Int)
    (hlen : used.length = acc.length)
    (hmem : ∀ q, q ∈ used ↔ q ∈ acc.map Prod.fst) :
    fillChallenge pairs used coeffs =
      ((specAccept pairs acc).drop acc.length).foldl
        (fun co ps => co.set ps.1 ps.2) coeffs := by
  induction pairs generalizing used acc coeffs with
  | nil => rw [fillChallenge, specAccept, List.drop_length, List.foldl_nil]
  | cons pr rest ih =>
    obtain ⟨p, s⟩ := pr
    by_cases h1 : used.length < TAU
    · have h1' : acc.length < TAU := hlen ▸ h1
      by_cases h2 : p ∈ used
      · have h2' : p ∈ acc.map Prod.fst := (hmem p).mp h2
        rw [fillChallenge, if_pos h1, if_pos h2, specAccept, if_pos h1', if_pos h2']
        exact ih used acc coeffs hlen hmem
      · have h2' : p ∉ acc.map Prod.fst := fun hc => h2 ((hmem p).mpr hc)
        rw [fillChallenge, if_pos h1, if_neg h2, specAccept, if_pos h1', if_neg h2']
        have hih := ih (p :: used) (acc ++ [(p, s)]) (coeffs.set p s)
          (by simp [hlen])
          (by
            intro q
            simp only [List.mem_cons, List.map_append, List.mem_append,
              List.map_cons, List.map_nil, List.mem_singleton, hmem q]
            tauto)
        obtain ⟨suf, hsuf⟩ := specAccept_prefix rest (acc ++ [(p, s)])
        have e1 : ((acc ++ [(p, s)]) ++ suf).drop acc.length = (p, s) :: suf := by
          rw [List.append_assoc, List.drop_left]
          rfl
        have e2 : ((acc ++ [(p, s)]) ++ suf).drop (acc ++ [(p, s)]).length = suf :=
          List.drop_left _ _
        rw [hih, hsuf, e2, e1, List.foldl_cons]
    · have h1' : ¬acc.length < TAU := hlen ▸ h1
      rw [fillChallenge, if_neg h1, specAccept, if_neg h1', List.drop_length,
        List.foldl_nil]

theorem fillChallenge_mem (pairs : List (Nat × Int)) (used : List Nat)
    (coeffs : List Int) (x : Int) (hx : x ∈ fillChallenge pairs used coeffs) :
    x ∈ coeffs ∨ ∃ pr ∈ pairs, pr.2 = x := by
  induction pairs generalizing used coeffs with
  | nil => rw [fillChallenge] at hx; exact Or.inl hx
  | cons pr rest ih =>
    obtain ⟨p, s⟩ := pr
    rw [fillChallenge] at hx
    by_cases h1 : used.length < TAU
    · rw [if_pos h1] at hx
      by_cases h2 : p ∈ used
      · rw [if_pos h2] at hx
        rcases ih _ _ hx with h | ⟨q, hq, he⟩
        · exact Or.inl h
        · exact Or.inr ⟨q, List.mem_cons_of_mem _ hq, he⟩
      · rw [if_neg h2] at hx
        rcases ih _ _ hx with h | ⟨q, hq, he⟩
        · rcases List.mem_or_eq_of_mem_set h with h' | h'
          · exact Or.inl h'
          · exact Or.inr ⟨(p, s), List.mem_cons_self _ _, h'.symm⟩
        · exact Or.inr ⟨q, List.mem_cons_of_mem _ hq, he⟩
    · rw [if_neg h1] at hx
      exact Or.inl hx

theorem fillChallenge_countP (pairs : List (Nat × Int)) (used : List Nat)
    (coeffs : List Int) :
    (fillChallenge pairs used coeffs).countP (fun x => decide (x ≠ 0)) ≤
      coeffs.countP (fun x => decide (x ≠ 0)) + (TAU - used.length) := by
  induction pairs generalizing used coeffs with
  | nil => rw [fillChallenge]; omega
  | cons pr rest ih =>
    obtain ⟨p, s⟩ := pr
    rw [fillChallenge]
    by_cases h1 : used.length < TAU
    · rw [if_pos h1]
      by_cases h2 : p ∈ used
      · rw [if_pos h2]
        exact le_trans (ih used coeffs) (by omega)
      · rw [if_neg h2]
        have hih := ih (p :: used) (coeffs.set p s)
        have hset := countP_set_le (fun x => decide (x ≠ 0)) coeffs p s
        simp only [List.length_cons] at hih
        omega
    · rw [if_neg h1]
      omega

theorem fillChallenge_length (pairs : List (Nat × Int)) (used : List Nat)
    (coeffs : List Int) :
    (fillChallenge pairs used coeffs).length = coeffs.length := by
  induction pairs generalizing used coeffs with
  | nil => rw [fillChallenge]
  | cons pr rest ih =>
    obtain ⟨p, s⟩ := pr
    rw [fillChallenge]
    by_cases h1 : used.length < TAU
    · rw [if_pos h1]
      by_cases h2 : p ∈ used
      · rw [if_pos h2]; exact ih _ _
      · rw [if_neg h2]; rw [ih _ _, List.length_set]
    · rw [if_neg h1]

theorem challengePairs_snd {cb : Bytes} {pr : Nat × Int}
    (h : pr ∈ challengePairs cb) : pr.2 = 1 ∨ pr.2 = -1 := by
  unfold challengePairs at h
  rcases List.mem_map.mp h with ⟨idx, _, rfl⟩
  dsimp only
  split
  · exact Or.inl rfl
  · exact Or.inr rfl

/-- C5: the challenge polynomial has at most `TAU = 60` nonzero
coefficients, each congruent to `+1` or `-1` modulo `Q`, and equals the
polynomial described by the spec's accept-first-occurrence walk of the
`2*TAU`-byte stream with the high-bit sign rule. -/
theorem C5_challenge_sparse_ternary (xof : Xof) (m : Bytes)
    (pk : Bytes × List Poly) (w1 : List Poly) :
    (generateChallenge xof m pk w1).countP (fun x => decide (x ≠ 0)) ≤ TAU ∧
    (∀ x ∈ generateChallenge xof m pk w1, x = 0 ∨ x = 1 ∨ x = Q - 1) ∧
    generateChallenge xof m pk w1 =
      specChallengePoly (xofRead xof (challengeSeed xof m pk w1) (TAU * 2)) := by
  refine ⟨?_, ?_, ?_⟩
  · unfold generateChallenge
    dsimp only
    rw [mkPoly_of_length (by rw [fillChallenge_length]; exact List.length_replicate _ _),
      List.countP_map]
    refine le_trans (List.countP_mono_left (fun x _ hpx => ?_)) (le_trans
      (fillChallenge_countP _ _ _) ?_)
    · by_contra hx0
      simp only [decide_eq_true_eq, Decidable.not_not] at hx0
      rw [Function.comp_apply, hx0] at hpx
      exact absurd hpx (by decide)
    · have : (List.replicate Ndeg (0 : Int)).countP (fun x => decide (x ≠ 0)) = 0 := by
        rw [List.countP_eq_zero]
        intro a ha
        rw [List.eq_of_mem_replicate ha]
        decide
      omega
  · intro x hx
    unfold generateChallenge at hx
    dsimp only at hx
    rw [mkPoly_of_length (by rw [fillChallenge_length]; exact List.length_replicate _ _)]
      at hx
    rcases List.mem_map.mp hx with ⟨y, hy, rfl⟩
    rcases fillChallenge_mem _ _ _ y hy with h | ⟨pr, hpr, he⟩
    · rw [List.eq_of_mem_replicate h]
      exact Or.inl (by decide)
    · rcases challengePairs_snd hpr with h1 | h1
      · rw [← he, h1]
        exact Or.inr (Or.inl (by decide))
      · rw [← he, h1]
        refine Or.inr (Or.inr ?_)
        decide
  · unfold generateChallenge specChallengePoly
    dsimp only
    rw [fillChallenge_spec _ [] [] _ rfl (by intro q; simp), List.length_nil,
      List.drop_zero]

/-! ### The matrix byte-to-coefficient mapping (C3). -/

theorem xofRead_getD_lt_256 (xof : Xof) (s : Bytes) (len m : Nat) :
    (xofRead xof s len).getD m 0 < 256 := by
  by_cases h : m < len
  · rw [getD_xofRead h]
    exact Nat.mod_lt _ (by decide)
  · rw [List.getD_eq_getElem?_getD, List.getElem?_eq_none (by simp [xofRead]; omega)]
    decide

theorem flatIdx_lt {i j n k l : Nat} (hi : i < k) (hj : j < l) (hn : n < Ndeg) :
    (i * l + j) * Ndeg + n < k * l * Ndeg := by
  have h1 : i * l + j < k * l := by
    calc i * l + j < i * l + l := by omega
    _ = (i + 1) * l := by ring
    _ ≤ k * l := Nat.mul_le_mul_right l (by omega)
  calc (i * l + j) * Ndeg + n < (i * l + j) * Ndeg + Ndeg := by omega
  _ = (i * l + j + 1) * Ndeg := by ring
  _ ≤ k * l * Ndeg := Nat.mul_le_mul_right Ndeg (by omega)

theorem wrap32_eq_if (u : Nat) (h : u < 2 ^ 32) :
    wrap32 (u : Int) = if u < 2 ^ 31 then (u : Int) else (u : Int) - 2 ^ 32 := by
  unfold wrap32
  split <;> omega

theorem leWord32_eq_wrap32 (b0 b1 b2 b3 : Nat) :
    leWord32 b0 b1 b2 b3 =
      wrap32 ((b0 + 2 ^ 8 * b1 + 2 ^ 16 * b2 + 2 ^ 24 * b3 : Nat) : Int) := by
  unfold leWord32
  congr 1

set_option maxRecDepth 10000 in
/-- C3 (amended): `derive_matrix` expands `rho` under the matrix domain
separator into `k*l*N*4` bytes, interprets each 4-byte group as a
little-endian SIGNED (two's-complement) 32-bit word, reduces it modulo Q
into `[0, Q)`, and fills the matrix in row-major (k, then l, then N)
order. -/
theorem C3_matrix_signed_words (xof : Xof) (seed : Bytes) (k l : Nat) :
    generateMatrix xof seed k l = specGenerateMatrixSigned xof seed k l := by
  unfold generateMatrix specGenerateMatrixSigned
  dsimp only
  refine List.map_congr_left (fun i hi => ?_)
  refine List.map_congr_left (fun j hj => ?_)
  refine congrArg mkPoly ?_
  refine List.map_congr_left (fun n hn => ?_)
  rw [List.mem_range] at hi hj hn
  have hidx := flatIdx_lt hi hj hn
  rw [getD_map_range _ hidx, getD_map_range _ hidx]
  have hb0 := xofRead_getD_lt_256 xof (seed ++ [DOMAIN_MATRIX]) (k * l * Ndeg * 4)
    (4 * ((i * l + j) * Ndeg + n))
  have hb1 := xofRead_getD_lt_256 xof (seed ++ [DOMAIN_MATRIX]) (k * l * Ndeg * 4)
    (4 * ((i * l + j) * Ndeg + n) + 1)
  have hb2 := xofRead_getD_lt_256 xof (seed ++ [DOMAIN_MATRIX]) (k * l * Ndeg * 4)
    (4 * ((i * l + j) * Ndeg + n) + 2)
  have hb3 := xofRead_getD_lt_256 xof (seed ++ [DOMAIN_MATRIX]) (k * l * Ndeg * 4)
    (4 * ((i * l + j) * Ndeg + n) + 3)
  rw [leWord32_eq_wrap32, wrap32_eq_if _ (by omega)]

/-- C3 counterexample: with a stream whose every 4-byte group is
`(0, 0, 0, 128)` — little-endian word `2^31` — the code stores
`(-2^31) mod Q = 6283521` while the claimed unsigned reading stores
`2^31 mod Q = 2096896`. -/
theorem C3_counterexample :
    generateMatrix highByteXof (List.replicate 32 0) 1 1 ≠
      specGenerateMatrixUnsigned highByteXof (List.replicate 32 0) 1 1 ∧
    (((generateMatrix highByteXof (List.replicate 32 0) 1 1).getD 0 []).getD 0
      []).getD 0 0 = 6283521 ∧
    (((specGenerateMatrixUnsigned highByteXof (List.replicate 32 0) 1 1).getD 0
      []).getD 0 []).getD 0 0 = 2096896 := by
  have h1 : (((generateMatrix highByteXof (List.replicate 32 0) 1 1).getD 0
      []).getD 0 []).getD 0 0 = 6283521 := by
    unfold generateMatrix
    dsimp only
    rw [show (List.range 1) = [0] from rfl]
    simp only [List.map_cons, List.map_nil, List.getD_cons_zero]
    rw [mkPoly_map_range_getD _ (by decide), getD_map_range _ (by decide),
      getD_xofRead (by decide), getD_xofRead (by decide), getD_xofRead (by decide),
      getD_xofRead (by decide)]
    decide
  have h2 : (((specGenerateMatrixUnsigned highByteXof (List.replicate 32 0) 1
      1).getD 0 []).getD 0 []).getD 0 0 = 2096896 := by
    unfold specGenerateMatrixUnsigned
    dsimp only
    rw [show (List.range 1) = [0] from rfl]
    simp only [List.map_cons, List.map_nil, List.getD_cons_zero]
    rw [mkPoly_map_range_getD _ (by decide), getD_map_range _ (by decide),
      getD_xofRead (by decide), getD_xofRead (by decide), getD_xofRead (by decide),
      getD_xofRead (by decide)]
    decide
  refine ⟨fun h => ?_, h1, h2⟩
  have hproj := congrArg
    (fun mM : List (List Poly) => ((mM.getD 0 []).getD 0 []).getD 0 0) h
  dsimp only at hproj
  rw [h1, h2] at hproj
  exact absurd hproj (by decide)

/-! ### Ring multiplication versus the convolution (C4). -/

theorem sum_map_range_zero (n : Nat) (f : Nat → Int)
    (h : ∀ i, i < n → f i = 0) : ((List.range n).map f).sum = 0 := by
  rw [List.map_congr_left (fun i hi => h i (List.mem_range.mp hi)),
    List.map_const', List.length_range, List.sum_replicate, smul_zero]

theorem sum_map_range_single (n : Nat) (f : Nat → Int) (kIdx : Nat)
    (hk : kIdx < n) (h : ∀ i, i < n → i ≠ kIdx → f i = 0) :
    ((List.range n).map f).sum = f kIdx := by
  induction n with
  | zero => omega
  | succ n ih =>
    rw [List.range_succ, List.map_append, List.sum_append]
    by_cases hkn : kIdx = n
    · subst hkn
      rw [sum_map_range_zero kIdx f (fun i hi => h i (by omega) (by omega))]
      simp
    · rw [ih (by omega) (fun i hi hik => h i (by omega) hik)]
      have hn : f n = 0 := h n (by omega) (by omega)
      simp [hn]

theorem xPoly_getD (i : Nat) : xPoly.getD i 0 = if i = 1 then 1 else 0 := by
  match i with
  | 0 => rfl
  | 1 => rfl
  | n + 2 =>
    rw [if_neg (show ¬n + 2 = 1 by omega)]
    show (List.replicate 254 (0 : Int)).getD n 0 = 0
    rw [getD_replicate]
    split <;> rfl

theorem onePoly_getD (i : Nat) : onePoly.getD i 0 = if i = 0 then 1 else 0 := by
  match i with
  | 0 => rfl
  | n + 1 =>
    rw [if_neg (show ¬n + 1 = 0 by omega)]
    show (List.replicate 255 (0 : Int)).getD n 0 = 0
    rw [getD_replicate]
    split <;> rfl

theorem specMulCoeff_x_one : specMulCoeff xPoly onePoly 1 = 1 := by
  unfold specMulCoeff
  rw [sum_map_range_single Ndeg _ 1 (by decide) (fun i _ hi1 =>
    sum_map_range_zero Ndeg _ (fun j _ => by
      rw [xPoly_getD, if_neg hi1, zero_mul, mul_zero]
      split <;> rfl))]
  rw [sum_map_range_single Ndeg _ 0 (by decide) (fun j _ hj0 => by
    rw [onePoly_getD, if_neg hj0, mul_zero, mul_zero]
    split <;> rfl)]
  rw [xPoly_getD, onePoly_getD]
  decide

set_option maxRecDepth 40000 in
/-- C4: the code's multiplication is not the quotient-ring convolution.
At `a = X`, `b = 1` the convolution gives `X` (coefficient 1 at position
1), but the code — whose `np.roll(prods, -i)` correlates instead of
convolving — returns `(Q-1)·X^255` (coefficient 0 at position 1, `Q-1` at
position 255). -/
theorem C4_mul_not_convolution :
    (polyMul xPoly onePoly).getD 1 0 = 0 ∧
    (polyMul xPoly onePoly).getD 255 0 = Q - 1 ∧
    (specRingMul xPoly onePoly).getD 1 0 = 1 ∧
    polyMul xPoly onePoly ≠ specRingMul xPoly onePoly := by
  have h1 : (polyMul xPoly onePoly).getD 1 0 = 0 := by
    unfold polyMul
    rw [mkPoly_map_range_getD _ (by decide),
      show mulCoeff xPoly onePoly 1 = 0 from by decide]
    decide
  have h2 : (polyMul xPoly onePoly).getD 255 0 = Q - 1 := by
    unfold polyMul
    rw [mkPoly_map_range_getD _ (by decide),
      show mulCoeff xPoly onePoly 255 = Q - 1 from by decide]
    decide
  have h3 : (specRingMul xPoly onePoly).getD 1 0 = 1 := by
    unfold specRingMul
    rw [getD_map_range _ (by decide), specMulCoeff_x_one]
    decide
  refine ⟨h1, h2, h3, fun h => ?_⟩
  have hproj := congrArg (fun p : Poly => p.getD 1 0) h
  dsimp only at hproj
  rw [h1, h3] at hproj
  exact absurd hproj (by decide)

/-! ### The construction invariant (C9). -/

theorem mkPoly_getD_lt {cs : List Int} {j : Nat} (hj : j < Ndeg) :
    (mkPoly cs).getD j 0 =
      if j < cs.length then reduceCoeff (cs.getD j 0) else 0 := by
  unfold mkPoly
  dsimp only
  by_cases h : j < cs.length
  · rw [if_pos h]
    have hjt : j < ((cs.take Ndeg).map reduceCoeff).length := by
      rw [List.length_map, List.length_take]
      omega
    rw [List.getD_append _ _ _ _ hjt, List.getD_eq_getElem?_getD,
      List.getElem?_map, List.getElem?_take, if_pos hj,
      List.getElem?_eq_getElem h]
    rw [List.getD_eq_getElem cs 0 h]
    rfl
  · rw [if_neg h]
    have hjt : ((cs.take Ndeg).map reduceCoeff).length ≤ j := by
      rw [List.length_map, List.length_take]
      omega
    rw [List.getD_append_right _ _ _ _ hjt, getD_replicate]
    split <;> rfl

set_option maxRecDepth 10000 in
/-- C9 counterexample: the input coefficient `2^31` is first truncated to
`int32` (giving `-2^31`), so the stored value `(-2^31) mod Q = 6283521`
is not the claimed plain reduction `2^31 mod Q = 2096896`. -/
theorem C9_counterexample :
    (mkPoly [2 ^ 31]).getD 0 0 = 6283521 ∧ (2 ^ 31 : Int) % Q = 2096896 ∧
      (mkPoly [2 ^ 31]).getD 0 0 ≠ (2 ^ 31 : Int) % Q := by
  refine ⟨by decide, by decide, by decide⟩

set_option maxRecDepth 10000 in
/-- C9 (amended): every Polynomial produced by construction, add, sub,
scalar multiplication or ring multiplication has exactly N coefficients in
`[0, Q)`; construction truncates or zero-pads to N and reduces each
coefficient modulo Q after first wrapping it into the signed 32-bit range
(so plain reduction modulo Q holds for all inputs of magnitude below
`2^31`, in particular everywhere the oversized-coefficient diagnostic can
fire); construction is total. -/
theorem C9_construction_invariant :
    (∀ cs : List Int, canonicalPoly (mkPoly cs)) ∧
    (∀ a b : Poly, canonicalPoly (polyAdd a b) ∧ canonicalPoly (polySub a b)) ∧
    (∀ (a : Poly) (c : Int), canonicalPoly (polyScalarMul a c)) ∧
    (∀ a b : Poly, canonicalPoly (polyMul a b)) ∧
    (∀ cs : List Int, (∀ x ∈ cs, -2 ^ 31 ≤ x ∧ x < 2 ^ 31) →
      ∀ j, j < Ndeg → (mkPoly cs).getD j 0 = cs.getD j 0 % Q) := by
  refine ⟨canonical_mkPoly, fun a b => ⟨canonical_polyAdd a b, canonical_polySub a b⟩,
    canonical_polyScalarMul, canonical_polyMul, fun cs hcs j hj => ?_⟩
  rw [mkPoly_getD_lt hj]
  by_cases h : j < cs.length
  · rw [if_pos h]
    have hmem : cs.getD j 0 ∈ cs := by
      rw [List.getD_eq_getElem cs 0 h]
      exact List.getElem_mem h
    unfold reduceCoeff
    rw [wrap32_eq_self (hcs _ hmem).1 (hcs _ hmem).2]
  · rw [if_neg h, List.getD_eq_getElem?_getD, List.getElem?_eq_none (by omega)]
    rfl

/-- Witness for C9 at concrete in-range inputs. -/
theorem C9_witness :
    canonicalPoly (mkPoly [5, -3]) ∧
    (∀ x ∈ [(5 : Int), -3], -2 ^ 31 ≤ x ∧ x < 2 ^ 31) ∧
    (mkPoly [5, -3]).getD 1 0 = (-3 : Int) % Q :=
  ⟨C9_construction_invariant.1 _, by decide,
    C9_construction_invariant.2.2.2.2 [5, -3] (by decide) 1 (by decide)⟩

/-- Witness for C8 on a concrete keyed instance. -/
theorem C8_witness :
    sign (fun _ _ => 0) ⟨1, 1, 0, some [0], some [[]], some [[]], some [[]],
      some [[]]⟩ [] (fun _ => []) 0 = .error .signingFailure :=
  (C8_sign_exhaustion_fails _ _ _ _ _ _ _ _ rfl rfl rfl rfl (by decide)).1

/-! ### The stale matrix cache across keygen calls (C2). -/

theorem generateMatrix_constStream (xof : Xof) (r : Bytes) (k l c : Nat)
    (hc : c < 256) (h : ∀ i, xof (r ++ [DOMAIN_MATRIX]) i = c) :
    generateMatrix xof r k l = List.replicate k (List.replicate l
      (List.replicate Ndeg (reduceCoeff (leWord32 c c c c % Q)))) := by
  unfold generateMatrix
  dsimp only
  have hdata : ∀ m, m < k * l * Ndeg * 4 →
      (xofRead xof (r ++ [DOMAIN_MATRIX]) (k * l * Ndeg * 4)).getD m 0 = c := by
    intro m hm
    rw [getD_xofRead hm, h m, Nat.mod_eq_of_lt hc]
  have hcoeffs : ∀ idx ∈ List.range (k * l * Ndeg),
      leWord32 ((xofRead xof (r ++ [DOMAIN_MATRIX]) (k * l * Ndeg * 4)).getD (4 * idx) 0)
        ((xofRead xof (r ++ [DOMAIN_MATRIX]) (k * l * Ndeg * 4)).getD (4 * idx + 1) 0)
        ((xofRead xof (r ++ [DOMAIN_MATRIX]) (k * l * Ndeg * 4)).getD (4 * idx + 2) 0)
        ((xofRead xof (r ++ [DOMAIN_MATRIX]) (k * l * Ndeg * 4)).getD (4 * idx + 3) 0) % Q =
        leWord32 c c c c % Q := by
    intro idx hidx
    rw [List.mem_range] at hidx
    rw [hdata _ (by omega), hdata _ (by omega), hdata _ (by omega), hdata _ (by omega)]
  rw [List.map_congr_left hcoeffs, List.map_const', List.length_range]
  have houter : ∀ i ∈ List.range k,
      (List.range l).map (fun j =>
        mkPoly ((List.range Ndeg).map (fun n =>
          (List.replicate (k * l * Ndeg) (leWord32 c c c c % Q)).getD
            ((i * l + j) * Ndeg + n) 0))) =
        List.replicate l (List.replicate Ndeg (reduceCoeff (leWord32 c c c c % Q))) := by
    intro i hi
    rw [List.mem_range] at hi
    have hin : ∀ j ∈ List.range l,
        mkPoly ((List.range Ndeg).map (fun n =>
          (List.replicate (k * l * Ndeg) (leWord32 c c c c % Q)).getD
            ((i * l + j) * Ndeg + n) 0)) =
          List.replicate Ndeg (reduceCoeff (leWord32 c c c c % Q)) := by
      intro j hj
      rw [List.mem_range] at hj
      have hcoef : ∀ n ∈ List.range Ndeg,
          (List.replicate (k * l * Ndeg) (leWord32 c c c c % Q)).getD
            ((i * l + j) * Ndeg + n) 0 = leWord32 c c c c % Q := by
        intro n hn
        rw [List.mem_range] at hn
        rw [getD_replicate, if_pos (flatIdx_lt hi hj hn)]
      rw [List.map_congr_left hcoef, List.map_const', List.length_range,
        mkPoly_replicate]
    rw [List.map_congr_left hin, List.map_const', List.length_range]
  rw [List.map_congr_left houter, List.map_const', List.length_range]

theorem generateBoundedVector_constZero (xof : Xof) (s : Bytes)
    (size bound d : Nat) (h : ∀ i, xof (s ++ [d]) i = 0) :
    generateBoundedVector xof s size bound d =
      List.replicate size (List.replicate Ndeg (reduceCoeff (-(bound : Int)))) := by
  unfold generateBoundedVector
  dsimp only
  have hdata : ∀ m, (xofRead xof (s ++ [d]) (size * Ndeg * 4)).getD m 0 = 0 := by
    intro m
    by_cases hm : m < size * Ndeg * 4
    · rw [getD_xofRead hm, h m]
    · rw [List.getD_eq_getElem?_getD, List.getElem?_eq_none (by simp [xofRead]; omega)]
      rfl
  simp only [hdata, mul_zero, add_zero, Nat.zero_mod, Nat.cast_zero, zero_sub,
    List.map_const', List.length_range, mkPoly_replicate]

theorem c2SmallPoly_canonical : canonicalPoly c2SmallPoly := by
  constructor
  · exact List.length_replicate _ _
  · intro x hx
    rw [List.eq_of_mem_replicate hx]
    exact ⟨by decide, by decide⟩

theorem foldl_polyAdd_zero_pairs (x : Poly) (nn : Nat) :
    (List.replicate nn (zeroPoly, x)).foldl
      (fun acc av => polyAdd acc (polyMul av.1 av.2)) zeroPoly = zeroPoly := by
  induction nn with
  | zero => rfl
  | succ nn ih =>
    rw [List.replicate_succ, List.foldl_cons]
    dsimp only
    rw [polyMul_left_zero, polyAdd_zeroPoly_zeroPoly]
    exact ih

theorem matVecMul_zeroMatrix (v0 : Poly) :
    matVecMul (List.replicate 4 (List.replicate 4 zeroPoly)) (List.replicate 4 v0) =
      List.replicate 4 zeroPoly := by
  unfold matVecMul
  rw [List.map_replicate, List.zip_replicate, show (4 ⊓ 4 : Nat) = 4 from rfl,
    foldl_polyAdd_zero_pairs]

theorem matVecMul_replicate (rowP v0 : Poly) :
    matVecMul (List.replicate 4 (List.replicate 4 rowP)) (List.replicate 4 v0) =
      List.replicate 4 ((List.replicate 4 (rowP, v0)).foldl
        (fun acc av => polyAdd acc (polyMul av.1 av.2)) zeroPoly) := by
  unfold matVecMul
  rw [List.map_replicate, List.zip_replicate, show (4 ⊓ 4 : Nat) = 4 from rfl]

theorem c2_t_eval :
    List.zipWith polyAdd (List.replicate 4 zeroPoly) (List.replicate 4 c2SmallPoly) =
      List.replicate 4 c2SmallPoly := by
  rw [List.zipWith_replicate, show (4 ⊓ 4 : Nat) = 4 from rfl,
    polyAdd_zero_left c2SmallPoly_canonical]

theorem c2_keygen_first :
    keygen c2Xof c2St0 [1] [0] [0] = .ok (c2St1, ([1], c2Svec), (c2Svec, c2Svec)) := by
  unfold keygen getMatrixA c2St0
  dsimp only
  rw [generateMatrix_constStream c2Xof [1] 4 4 0 (by decide) (fun i => rfl),
    show reduceCoeff (leWord32 0 0 0 0 % Q) = 0 from by decide,
    show List.replicate Ndeg (0 : Int) = zeroPoly from rfl]
  rw [generateBoundedVector_constZero c2Xof [0] 4 2 DOMAIN_SMALL_POLY (fun i => rfl),
    show reduceCoeff (-((2 : Nat) : Int)) = 8380415 from by decide,
    show List.replicate Ndeg (8380415 : Int) = c2SmallPoly from rfl]
  rw [matVecMul_zeroMatrix, c2_t_eval]
  rfl

theorem c2_keygen_second :
    keygen c2Xof c2St1 [2] [0] [0] = .ok (c2St2, ([2], c2Svec), (c2Svec, c2Svec)) := by
  unfold keygen getMatrixA c2St1 c2ZeroMatrix c2Svec
  dsimp only
  rw [generateBoundedVector_constZero c2Xof [0] 4 2 DOMAIN_SMALL_POLY (fun i => rfl),
    show reduceCoeff (-((2 : Nat) : Int)) = 8380415 from by decide,
    show List.replicate Ndeg (8380415 : Int) = c2SmallPoly from rfl]
  rw [matVecMul_zeroMatrix, c2_t_eval]
  rfl

theorem polyAdd_getD {a b : Poly} (ha : a.length = Ndeg) (hb : b.length = Ndeg)
    {j : Nat} (hj : j < Ndeg) :
    (polyAdd a b).getD j 0 = reduceCoeff (wrap32 (a.getD j 0 + b.getD j 0) % Q) := by
  unfold polyAdd
  rw [mkPoly_of_length (by rw [List.length_zipWith, ha, hb]; exact min_self _)]
  rw [List.getD_eq_getElem?_getD, List.getElem?_map, List.getElem?_zipWith,
    List.getElem?_eq_getElem (show j < a.length by rw [ha]; exact hj),
    List.getElem?_eq_getElem (show j < b.length by rw [hb]; exact hj)]
  dsimp only
  rw [List.getD_eq_getElem a 0 (show j < a.length by rw [ha]; exact hj),
    List.getD_eq_getElem b 0 (show j < b.length by rw [hb]; exact hj)]
  rfl

set_option maxRecDepth 40000 in
/-- The `t` the claim requires of the second keygen call: the matrix
freshly derived from the stored `rho = [2]`, times `s1`, plus `s2`. -/
theorem c2_claimed_entry :
    ((List.zipWith polyAdd (matVecMul (generateMatrix c2Xof [2] 4 4) c2Svec)
      c2Svec).getD 0 zeroPoly).getD 0 0 = 1179254 := by
  rw [generateMatrix_constStream c2Xof [2] 4 4 7 (by decide) (fun i => rfl),
    show reduceCoeff (leWord32 7 7 7 7 % Q) = 575225 from by decide,
    show c2Svec = List.replicate 4 c2SmallPoly from rfl,
    matVecMul_replicate, List.zipWith_replicate, show (4 ⊓ 4 : Nat) = 4 from rfl,
    getD_replicate, if_pos (by decide : (0 : Nat) < 4)]
  rw [show List.replicate 4 ((List.replicate Ndeg (575225 : Int), c2SmallPoly)) =
      [(List.replicate Ndeg 575225, c2SmallPoly), (List.replicate Ndeg 575225, c2SmallPoly),
       (List.replicate Ndeg 575225, c2SmallPoly), (List.replicate Ndeg 575225, c2SmallPoly)]
    from rfl]
  rw [List.foldl_cons, List.foldl_cons, List.foldl_cons, List.foldl_cons, List.foldl_nil]
  dsimp only
  have hmlen : ∀ a b : Poly, (polyMul a b).length = Ndeg := fun a b => (canonical_polyMul a b).1
  have halen : ∀ a b : Poly, (polyAdd a b).length = Ndeg := fun a b => (canonical_polyAdd a b).1
  have hz : zeroPoly.length = Ndeg := zeroPoly_canonical.1
  have hsp : c2SmallPoly.length = Ndeg := List.length_replicate _ _
  have hm : (polyMul (List.replicate Ndeg 575225) c2SmallPoly).getD 0 0 =
      reduceCoeff (mulCoeff (List.replicate Ndeg 575225) c2SmallPoly 0) := by
    unfold polyMul
    exact mkPoly_map_range_getD _ (by decide)
  rw [polyAdd_getD (halen _ _) hsp (by decide),
    polyAdd_getD (halen _ _) (hmlen _ _) (by decide),
    polyAdd_getD (halen _ _) (hmlen _ _) (by decide),
    polyAdd_getD (halen _ _) (hmlen _ _) (by decide),
    polyAdd_getD hz (hmlen _ _) (by decide), getD_zeroPoly, hm]
  rw [show mulCoeff (List.replicate Ndeg 575225) c2SmallPoly 0 = 294814 from by decide]
  decide

theorem c2_actual_entry : ((c2Svec).getD 0 zeroPoly).getD 0 0 = 8380415 := by
  rw [show c2Svec = List.replicate 4 c2SmallPoly from rfl, getD_replicate,
    if_pos (by decide : (0 : Nat) < 4)]
  rw [show c2SmallPoly = List.replicate Ndeg 8380415 from rfl, getD_replicate]
  rw [if_pos (by decide : (0 : Nat) < Ndeg)]

/-- C2: the claim fails on a second `keygen` call.  `get_matrix_A`'s
`lru_cache` keys only on `self`, so the second call reuses the matrix
derived from the first `rho`; the returned `t` (here `c2Svec`, since the
cached matrix is all zeros) differs from
`derive_matrix(rho2)·s1 + s2` as the claim requires. -/
theorem C2_second_keygen_stale_matrix :
    keygen c2Xof c2St0 [1] [0] [0] = .ok (c2St1, ([1], c2Svec), (c2Svec, c2Svec)) ∧
    keygen c2Xof c2St1 [2] [0] [0] = .ok (c2St2, ([2], c2Svec), (c2Svec, c2Svec)) ∧
    c2Svec ≠ List.zipWith polyAdd
      (matVecMul (generateMatrix c2Xof [2] 4 4) c2Svec) c2Svec := by
  refine ⟨c2_keygen_first, c2_keygen_second, fun h => ?_⟩
  have hproj := congrArg (fun L : List Poly => (L.getD 0 zeroPoly).getD 0 0) h
  dsimp only at hproj
  rw [c2_actual_entry, c2_claimed_entry] at hproj
  exact absurd hproj (by decide)

end Dilithium
